import Mathlib

set_option maxRecDepth 20000

/-!
Shallow embedding of the blog build script shipped in this repository
(the `pnpm blog:build` tool: frontmatter parsing, markdown rendering,
TypeScript code generation, and the build / delete lifecycle).

Strings are modeled as `List Char` (`Str`).  JavaScript regular-expression
passes are modeled as explicit scanners that reproduce the engine's
leftmost, non-overlapping matching discipline; lazy `.*?` groups are
modeled as shortest-first searches.  The filesystem directories the tool
touches (the markdown content directory and the generated data directory)
are modeled as association lists from file name to file content.
-/

abbrev Str := List Char

def strOf (s : String) : Str := s.toList

/-- The backtick character (template-literal delimiter). -/
def bq : Char := Char.ofNat 96

/-- Boolean test: `p` is a prefix of `s` (models `String.prototype.startsWith`
and a regex literal match at the current position). -/
def startsL : Str → Str → Bool
  | [], _ => true
  | _ :: _, [] => false
  | p :: ps, c :: cs => p == c && startsL ps cs

/-- Boolean substring test (models `String.prototype.includes`). -/
def hasSub (t : Str) : Str → Bool
  | [] => t.isEmpty
  | s@(_ :: rest) => startsL t s || hasSub t rest

/-- Boolean suffix test (models `String.prototype.endsWith`). -/
def endsL (t s : Str) : Bool := startsL t.reverse s.reverse

/-- Characters removed by `String.prototype.trim` (whitespace and line
terminators; the ASCII range plus NBSP and the BOM). -/
def isWsp (c : Char) : Bool :=
  (9 ≤ c.toNat && c.toNat ≤ 13) || c.toNat == 32 || c.toNat == 160 || c.toNat == 0xFEFF

/-- `String.prototype.trim`. -/
def trimL (s : Str) : Str :=
  ((s.dropWhile isWsp).reverse.dropWhile isWsp).reverse

/-- `String.prototype.split('\n')`. -/
def splitNl : Str → List Str
  | [] => [[]]
  | c :: rest =>
    if c == '\n' then [] :: splitNl rest
    else
      match splitNl rest with
      | [] => [[c]]
      | l :: ls => (c :: l) :: ls

/-- `Array.prototype.join('\n')`. -/
def joinNl : List Str → Str
  | [] => []
  | [l] => l
  | l :: rest => l ++ '\n' :: joinNl rest

/-- A `^pat(.*$)/gm` regex pass: transform each line independently.
(`^`/`$` with the `m` flag bound every line; `.` never crosses `\n`.) -/
def linePass (f : Str → Str) (s : Str) : Str :=
  joinNl ((splitNl s).map f)

/-- One header/blockquote/list-item line rule: if the marker starts the
line, wrap the remainder of the line in the given open/close tags. -/
def lineRule (marker op cl : Str) (line : Str) : Str :=
  if startsL marker line then op ++ line.drop marker.length ++ cl else line

/- Replacement fragments taken verbatim from `markdownToHtml`. -/
def h6Open : Str := strOf "<h6 class=\"text-sm font-semibold text-primary mt-4 mb-2\">"
def h5Open : Str := strOf "<h5 class=\"text-base font-semibold text-primary mt-4 mb-2\">"
def h4Open : Str := strOf "<h4 class=\"text-lg font-bold text-primary mt-6 mb-3\">"
def h3Open : Str := strOf "<h3 class=\"text-xl font-bold text-primary mt-8 mb-4\">"
def h2Open : Str := strOf "<h2 class=\"text-2xl font-bold text-primary mt-10 mb-4\">"
def h1Open : Str := strOf "<h1 class=\"text-3xl font-bold text-primary mt-12 mb-6\">"
def bqOpen : Str :=
  strOf "<blockquote class=\"border-l-4 border-accent pl-4 my-6 italic text-gray-600\">"
def liOpen : Str := strOf "<li class=\"flex items-start gap-2\">"
def liMid : Str := strOf "<span class=\"text-accent\">•</span><span>"
def liClose : Str := strOf "</span></li>"
def ulOpen : Str := strOf "<ul class=\"space-y-2 text-gray-600 my-4\">"
def pOpen : Str := strOf "<p class=\"text-gray-600 my-4\">"

def headerLine (line : Str) : Str :=
  lineRule (strOf "# ") h1Open (strOf "</h1>")
    (lineRule (strOf "## ") h2Open (strOf "</h2>")
      (lineRule (strOf "### ") h3Open (strOf "</h3>")
        (lineRule (strOf "#### ") h4Open (strOf "</h4>")
          (lineRule (strOf "##### ") h5Open (strOf "</h5>")
            (lineRule (strOf "###### ") h6Open (strOf "</h6>") line)))))

def bqLine (line : Str) : Str :=
  lineRule (strOf "> ") bqOpen (strOf "</blockquote>") line

def liLine (line : Str) : Str :=
  lineRule (strOf "- ") (liOpen ++ liMid) liClose line

/-- Lazy search for the closing emphasis marker: the shortest content (whose
characters may not include `\n`, mirroring `.` without the `s` flag)
followed by the marker.  Returns the content and the text after the
closing marker. -/
def emFind (m : Str) : Str → Option (Str × Str)
  | [] => none
  | s@(c :: cs) =>
    if startsL m s then some ([], s.drop m.length)
    else if c == '\n' then none
    else
      match emFind m cs with
      | some (content, rest) => some (c :: content, rest)
      | none => none

/-- Fueled global-replace scanner for one emphasis pass
(`/m(.*?)m/g` with marker `m`): leftmost, non-overlapping. -/
def emScanF (m : Str) (w : Str → Str) : Nat → Str → Str
  | 0, _ => []
  | _, [] => []
  | Nat.succ f, s@(c :: cs) =>
    if startsL m s then
      match emFind m (s.drop m.length) with
      | some (content, rest) => w content ++ emScanF m w f rest
      | none => c :: emScanF m w f cs
    else c :: emScanF m w f cs

def emScan (m : Str) (w : Str → Str) (s : Str) : Str := emScanF m w s.length s

def em3Wrap (c : Str) : Str := strOf "<strong><em>" ++ c ++ strOf "</em></strong>"
def em2Wrap (c : Str) : Str := strOf "<strong>" ++ c ++ strOf "</strong>"
def em1Wrap (c : Str) : Str := strOf "<em class=\"text-accent\">" ++ c ++ strOf "</em>"

/-- The three emphasis substitutions of `markdownToHtml`, in source order
(triple before double before single). -/
def emphasisPass (s : Str) : Str :=
  emScan (strOf "*") em1Wrap (emScan (strOf "**") em2Wrap (emScan (strOf "***") em3Wrap s))

/-- Lazy dotall search for `</li>` (the `.*?` inside the list-wrapping
regex uses the `s` flag, so content may span newlines). -/
def liFind : Str → Option (Str × Str)
  | [] => none
  | s@(c :: cs) =>
    if startsL (strOf "</li>") s then some ([], s.drop 5)
    else
      match liFind cs with
      | some (content, rest) => some (c :: content, rest)
      | none => none

/-- One iteration of the list-wrapping group:
`<li class="flex items-start gap-2">.*?</li>\n?`. -/
def grabOne (s : Str) : Option (Str × Str) :=
  if startsL liOpen s then
    match liFind (s.drop liOpen.length) with
    | some (content, rest) =>
      let piece := liOpen ++ content ++ strOf "</li>"
      match rest with
      | '\n' :: r2 => some (piece ++ ['\n'], r2)
      | _ => some (piece, rest)
    | none => none
  else none

/-- Greedy `(...)+`: as many adjacent iterations as will match. -/
def grabRunF : Nat → Str → Option (Str × Str)
  | 0, _ => none
  | Nat.succ f, s =>
    match grabOne s with
    | none => none
    | some (piece, rest) =>
      match grabRunF f rest with
      | some (more, rest2) => some (piece ++ more, rest2)
      | none => some (piece, rest)

/-- The list-run wrapping pass: every maximal adjacent run of generated
`<li>` fragments is wrapped in a single `<ul>` container. -/
def scanUlF : Nat → Str → Str
  | 0, _ => []
  | _, [] => []
  | Nat.succ f, s@(c :: cs) =>
    match grabRunF s.length s with
    | some (run, rest) => ulOpen ++ run ++ strOf "</ul>" ++ scanUlF f rest
    | none => c :: scanUlF f cs

def ulPass (s : Str) : Str := scanUlF s.length s

/-- The paragraph-wrapping pass applied to one line (verbatim conditions
from the source: blank, starts with a tag, or belongs to a list). -/
def pWrapLine (line : Str) : Str :=
  let t := trimL line
  if t.isEmpty then line
  else if startsL (strOf "<") t then line
  else if startsL (strOf "</") t then line
  else if hasSub (strOf "</li>") t then line
  else if hasSub (strOf "</ul>") t then line
  else pOpen ++ t ++ strOf "</p>"

/-- Fueled global literal-string replacement (`String.replace` with a `g`
regex holding no metacharacters). -/
def replStrF (t r : Str) : Nat → Str → Str
  | 0, _ => []
  | _, [] => []
  | Nat.succ f, s@(c :: cs) =>
    if startsL t s then r ++ replStrF t r f (s.drop t.length)
    else c :: replStrF t r f cs

/-- Empty-paragraph cleanup pass. -/
def cleanupPass (s : Str) : Str :=
  replStrF (pOpen ++ strOf "</p>") [] s.length s

/-- Scan forward to the first occurrence of `stop`; returns the characters
before it and the rest after it (models a `[^x]+`-delimited regex group). -/
def grabUntil (stop : Char) : Str → Option (Str × Str)
  | [] => none
  | c :: cs =>
    if c == stop then some ([], cs)
    else
      match grabUntil stop cs with
      | some (a, r) => some (c :: a, r)
      | none => none

/-- Try to match `\[([^\]]+)\]\(([^)]+)\)` at the current position. -/
def tryLink : Str → Option (Str × Str × Str)
  | '[' :: cs =>
    (match grabUntil ']' cs with
     | some (text, r1) =>
       if text.isEmpty then none
       else
         match r1 with
         | '(' :: r2 =>
           (match grabUntil ')' r2 with
            | some (url, r3) => if url.isEmpty then none else some (text, url, r3)
            | none => none)
         | _ => none
     | none => none)
  | _ => none

def linkWrap (text url : Str) : Str :=
  strOf "<a href=\"" ++ url ++ strOf "\" class=\"text-accent hover:underline\">" ++
    text ++ strOf "</a>"

def linkScanF : Nat → Str → Str
  | 0, _ => []
  | _, [] => []
  | Nat.succ f, s@(c :: cs) =>
    match tryLink s with
    | some (text, url, rest) => linkWrap text url ++ linkScanF f rest
    | none => c :: linkScanF f cs

def linkPass (s : Str) : Str := linkScanF s.length s

/-- Try to match `!\[([^\]]*)\]\(([^)]+)\)` at the current position
(the alt text may be empty). -/
def tryImg : Str → Option (Str × Str × Str)
  | '!' :: '[' :: cs =>
    (match grabUntil ']' cs with
     | some (alt, r1) =>
       (match r1 with
        | '(' :: r2 =>
          (match grabUntil ')' r2 with
           | some (url, r3) => if url.isEmpty then none else some (alt, url, r3)
           | none => none)
        | _ => none)
     | none => none)
  | _ => none

def imgWrap (alt url : Str) : Str :=
  strOf "<img src=\"" ++ url ++ strOf "\" alt=\"" ++ alt ++
    strOf "\" class=\"rounded-lg my-6 w-full\" />"

def imgScanF : Nat → Str → Str
  | 0, _ => []
  | _, [] => []
  | Nat.succ f, s@(c :: cs) =>
    match tryImg s with
    | some (alt, url, rest) => imgWrap alt url ++ imgScanF f rest
    | none => c :: imgScanF f cs

def imgPass (s : Str) : Str := imgScanF s.length s

/-- `markdownToHtml`, pass for pass in source order: headers (h6 down to
h1), emphasis (triple, double, single), blockquotes, list items, list-run
wrapping, paragraph wrapping, empty-paragraph cleanup, links, images. -/
def markdownToHtml (md : Str) : Str :=
  let h := linePass headerLine md
  let h := emphasisPass h
  let h := linePass bqLine h
  let h := linePass liLine h
  let h := ulPass h
  let h := linePass pWrapLine h
  let h := cleanupPass h
  let h := linkPass h
  let h := imgPass h
  h

/-! ## Frontmatter parsing -/

/-- A value stored in the parsed frontmatter record: a scalar line value or
a `- item` list. -/
inductive FmValue where
  | scalar (v : Str)
  | arr (items : List Str)
deriving DecidableEq

/-- The `Record<string, unknown>` built by `parseFrontmatter`, with
JavaScript object semantics (unique keys, insertion order). -/
abbrev FmRecord := List (Str × FmValue)

def recGet (r : FmRecord) (k : Str) : Option FmValue :=
  match r with
  | [] => none
  | (n, v) :: rest => if n = k then some v else recGet rest k

def recSet (r : FmRecord) (k : Str) (v : FmValue) : FmRecord :=
  match r with
  | [] => [(k, v)]
  | (n, w) :: rest => if n = k then (n, v) :: rest else (n, w) :: recSet rest k v

inductive FormatError where
  | invalidFrontmatter
deriving DecidableEq

def fmOpenDelim : Str := strOf "---\n"
def fmCloseDelim : Str := strOf "\n---\n"

/-- The lazy group of `/^---\n([\s\S]*?)\n---\n([\s\S]*)$/`: the shortest
header text followed by the closing delimiter line. -/
def findCloseDelim : Str → Option (Str × Str)
  | [] => none
  | s@(c :: cs) =>
    if startsL fmCloseDelim s then some ([], s.drop 5)
    else
      match findCloseDelim cs with
      | some (a, b) => some (c :: a, b)
      | none => none

def matchFrontmatter (s : Str) : Option (Str × Str) :=
  if startsL fmOpenDelim s then findCloseDelim (s.drop 4) else none

/-- Loop state of the YAML-ish line parser. -/
structure FmState where
  record : FmRecord
  currentKey : Str
  inArray : Bool
  arrayItems : List Str

def fmInit : FmState := ⟨[], [], false, []⟩

def fmStep (st : FmState) (line : Str) : FmState :=
  let t := trimL line
  if t.isEmpty then st
  else if startsL (strOf "- ") t && st.inArray then
    { st with arrayItems := st.arrayItems ++ [trimL (t.drop 2)] }
  else
    let st :=
      if st.inArray && !startsL (strOf "- ") t then
        { record := recSet st.record st.currentKey (.arr st.arrayItems),
          currentKey := st.currentKey, inArray := false, arrayItems := [] }
      else st
    match List.findIdx? (fun c => c == ':') line with
    | some i =>
      if 0 < i then
        let key := trimL (line.take i)
        let value := trimL (line.drop (i + 1))
        if value.isEmpty then
          { st with currentKey := key, inArray := true, arrayItems := [] }
        else { st with record := recSet st.record key (.scalar value) }
      else st
    | none => st

def fmFinish (st : FmState) : FmRecord :=
  let r := if st.inArray then recSet st.record st.currentKey (.arr st.arrayItems)
           else st.record
  match recGet r (strOf "tags") with
  | some (.arr _) => r
  | _ => recSet r (strOf "tags") (.arr [])

/-- `parseFrontmatter`: match the delimiter pair at the start of the text,
parse the header lines, coerce `tags` to a list, and return the record and
the trimmed body. -/
def parseFrontmatter (content : Str) : Except FormatError (FmRecord × Str) :=
  match matchFrontmatter content with
  | none => .error .invalidFrontmatter
  | some (fmStr, body) =>
    .ok (fmFinish ((splitNl fmStr).foldl fmStep fmInit), trimL body)

/-! ## Code generation helpers -/

/-- `camelCase`: every dash followed by a lowercase ASCII letter is
replaced by that letter uppercased (a global two-character match). -/
def camelCase : Str → Str
  | [] => []
  | '-' :: c :: rest =>
    if c.isLower then c.toUpper :: camelCase rest
    else '-' :: camelCase (c :: rest)
  | c :: rest => c :: camelCase rest

/-- `escapeTemplate`: escape backticks, then dollar signs. -/
def replChar (t : Char) (r : Str) : Str → Str
  | [] => []
  | c :: cs => (if c == t then r else [c]) ++ replChar t r cs

def escapeTemplate (s : Str) : Str :=
  replChar '$' ['\\', '$'] (replChar bq ['\\', bq] s)

/-- `JSON.stringify` escaping for one character of a string value. -/
def hexDigit (n : Nat) : Char :=
  if n < 10 then Char.ofNat (48 + n) else Char.ofNat (87 + n)

def jsonEscChar (c : Char) : Str :=
  if c == '"' then ['\\', '"']
  else if c == '\\' then ['\\', '\\']
  else if c == '\n' then ['\\', 'n']
  else if c == '\r' then ['\\', 'r']
  else if c == '\t' then ['\\', 't']
  else if c.toNat == 8 then ['\\', 'b']
  else if c.toNat == 12 then ['\\', 'f']
  else if c.toNat < 32 then strOf "\\u00" ++ [hexDigit (c.toNat / 16), hexDigit (c.toNat % 16)]
  else [c]

def jsonStr (s : Str) : Str := '"' :: s.flatMap jsonEscChar ++ ['"']

def jsonArr (xs : List Str) : Str :=
  '[' :: List.intercalate (strOf ",") (xs.map jsonStr) ++ [']']

/-- `JSON.stringify` of a possibly-missing frontmatter field, as it is
interpolated into the generated template (a missing field stringifies the
`undefined` value to the text `undefined`). -/
def stringifyFm : Option FmValue → Str
  | none => strOf "undefined"
  | some (.scalar v) => jsonStr v
  | some (.arr xs) => jsonArr xs

/-- `String(value)` as used by plain `${...}` interpolation. -/
def jsToStr : Option FmValue → Str
  | none => strOf "undefined"
  | some (.scalar v) => v
  | some (.arr xs) => List.intercalate (strOf ",") xs

/-- The conditional `subtitle: ...,` fragment (emitted only when the
subtitle field is truthy; the empty string is falsy, arrays are truthy). -/
def subtitlePart (meta : FmRecord) : Str :=
  match recGet meta (strOf "subtitle") with
  | some (.scalar v) =>
    if v.isEmpty then [] else strOf "subtitle: " ++ jsonStr v ++ strOf ","
  | some (.arr xs) => strOf "subtitle: " ++ jsonArr xs ++ strOf ","
  | none => []

/-! ## Article loading -/

/-- The result of `processMarkdownFile`: the frontmatter `slug` value, the
(possibly image-path-rewritten) metadata record, and the rendered markup. -/
structure Article where
  slug : Option FmValue
  meta : FmRecord
  html : Str
deriving DecidableEq

/-- `processMarkdownFile` on a file's raw content.  `none` models a thrown
error: a frontmatter `FormatError`, or the `TypeError` raised when a
non-string truthy `featuredImage` value reaches `.startsWith`. -/
def processMarkdownFile (content : Str) : Option Article :=
  match parseFrontmatter content with
  | .error _ => none
  | .ok (fm, body) =>
    let html := markdownToHtml body
    match recGet fm (strOf "featuredImage") with
    | some (.scalar v) =>
      if !v.isEmpty && startsL (strOf "images/") v then
        let fm2 := recSet fm (strOf "featuredImage")
          (.scalar (strOf "/images/blog/" ++ v.drop 7))
        some ⟨recGet fm2 (strOf "slug"), fm2, html⟩
      else some ⟨recGet fm (strOf "slug"), fm, html⟩
    | some (.arr _) => none
    | none => some ⟨recGet fm (strOf "slug"), fm, html⟩

/-! ## Generated module text -/

def fEq : Str := strOf ": "

def metaField (meta : FmRecord) (name : String) : Str :=
  stringifyFm (recGet meta (strOf name))

/-- The per-article generated module, byte for byte. -/
def moduleContent (slug : Str) (a : Article) : Str :=
  strOf "// Auto-generated - DO NOT EDIT\n// Generated by: pnpm blog:build\n// Source: blog-content/"
  ++ jsToStr a.slug
  ++ strOf ".md\n\nimport type \x7b BlogPost \x7d from \x27../../types/blog\x27\n\nexport const "
  ++ camelCase slug ++ strOf ": BlogPost = \x7b\n  title: " ++ metaField a.meta "title"
  ++ strOf ",\n  slug: " ++ metaField a.meta "slug"
  ++ strOf ",\n  excerpt: " ++ metaField a.meta "excerpt"
  ++ strOf ",\n  featuredImage: " ++ metaField a.meta "featuredImage"
  ++ strOf ",\n  category: " ++ metaField a.meta "category"
  ++ strOf ",\n  publishDate: " ++ metaField a.meta "publishDate"
  ++ strOf ",\n  author: " ++ metaField a.meta "author"
  ++ strOf ",\n  tags: " ++ metaField a.meta "tags"
  ++ strOf ",\n  " ++ subtitlePart a.meta
  ++ strOf "\n  content: " ++ [bq] ++ escapeTemplate a.html ++ [bq]
  ++ strOf ",\n\x7d\n\nexport default " ++ camelCase slug ++ strOf "\n"

def indexImportLine (a : Article) : Str :=
  strOf "import \x7b " ++ camelCase (jsToStr a.slug) ++ strOf " \x7d from \x27./"
  ++ jsToStr a.slug ++ strOf "\x27"

def indexMapLine (a : Article) : Str :=
  strOf "  \x27" ++ jsToStr a.slug ++ strOf "\x27: " ++ camelCase (jsToStr a.slug) ++ strOf ","

def indexMetaBlock (a : Article) : Str :=
  strOf "  \x7b\n    title: " ++ metaField a.meta "title"
  ++ strOf ",\n    slug: " ++ metaField a.meta "slug"
  ++ strOf ",\n    excerpt: " ++ metaField a.meta "excerpt"
  ++ strOf ",\n    featuredImage: " ++ metaField a.meta "featuredImage"
  ++ strOf ",\n    category: " ++ metaField a.meta "category"
  ++ strOf ",\n    publishDate: " ++ metaField a.meta "publishDate"
  ++ strOf ",\n    author: " ++ metaField a.meta "author"
  ++ strOf ",\n    tags: " ++ metaField a.meta "tags"
  ++ strOf ",\n    " ++ subtitlePart a.meta
  ++ strOf "\n  \x7d,"

/-- The fixed tail of the generated index module (lookup, categories and
tags operations), byte for byte. -/
def indexTail : Str :=
  strOf "\n]\n\n// Get a single blog post by slug\nexport function getBlogPost(slug: string): BlogPost | undefined \x7b\n  return blogPosts[slug]\n\x7d\n\n// Get all categories\nexport function getAllCategories(): string[] \x7b\n  const categories = new Set(blogPostsMeta.map((post) => post.category))\n  return Array.from(categories).sort()\n\x7d\n\n// Get all tags\nexport function getAllTags(): string[] \x7b\n  const tags = new Set(blogPostsMeta.flatMap((post) => post.tags))\n  return Array.from(tags).sort()\n\x7d\n\nexport default blogPosts\n"

/-- The generated index module for a list of articles, byte for byte. -/
def indexContent (arts : List Article) : Str :=
  strOf "// Auto-generated - DO NOT EDIT\n// Generated by: pnpm blog:build\n\nimport type \x7b BlogPostMeta, BlogPost \x7d from \x27../../types/blog\x27\n\n"
  ++ List.intercalate ['\n'] (arts.map indexImportLine)
  ++ strOf "\n\n// All blog posts with full content\nexport const blogPosts: Record<string, BlogPost> = \x7b\n"
  ++ List.intercalate ['\n'] (arts.map indexMapLine)
  ++ strOf "\n\x7d\n\n// Blog posts metadata only (for listing pages)\nexport const blogPostsMeta: BlogPostMeta[] = [\n"
  ++ List.intercalate ['\n'] (arts.map indexMetaBlock)
  ++ indexTail

/-- The hard-coded empty index written when the last markdown file is
gone (`deleteArticle`'s zero-files branch), byte for byte. -/
def emptyIndexStr : Str :=
  strOf "// Auto-generated - DO NOT EDIT\n// Generated by: pnpm blog:build\n\nimport type \x7b BlogPostMeta, BlogPost \x7d from \x27../../types/blog\x27\n\n// All blog posts with full content\nexport const blogPosts: Record<string, BlogPost> = \x7b\x7d\n\n// Blog posts metadata only (for listing pages)\nexport const blogPostsMeta: BlogPostMeta[] = []\n\n// Get a single blog post by slug\nexport function getBlogPost(slug: string): BlogPost | undefined \x7b\n  return blogPosts[slug]\n\x7d\n\n// Get all categories\nexport function getAllCategories(): string[] \x7b\n  return []\n\x7d\n\n// Get all tags\nexport function getAllTags(): string[] \x7b\n  return []\n\x7d\n\nexport default blogPosts\n"

/-- The write performed for one article: `<frontmatter slug>.ts` with the
module text.  `none` models the `TypeError` thrown by
`camelCase(article.slug)` when the slug is not a string. -/
def moduleWrite (a : Article) : Option (Str × Str) :=
  match a.slug with
  | some (.scalar s) => some (s ++ strOf ".ts", moduleContent s a)
  | _ => none

/-- The per-article writes of `generateTypeScriptFiles`, in order, plus a
crash flag: a non-string slug aborts the loop (writes before it stand). -/
def genModules : List Article → List (Str × Str) × Bool
  | [] => ([], false)
  | a :: rest =>
    match moduleWrite a with
    | none => ([], true)
    | some w =>
      let p := genModules rest
      (w :: p.1, p.2)

/-- `generateTypeScriptFiles`: the file writes it performs (per-article
modules, then the index), plus a crash flag. -/
def generateTypeScriptFiles (arts : List Article) : List (Str × Str) × Bool :=
  let p := genModules arts
  if p.2 then (p.1, true)
  else (p.1 ++ [(strOf "index.ts", indexContent arts)], false)

/-! ## Filesystem model and lifecycle -/

/-- The two directories the tool reads and writes: the markdown content
directory (read-only to this tool) and the generated data directory.
Each is a name-to-content listing.  (The image directories are disjoint
from both and are not touched by any property below.) -/
structure FileSys where
  contentDir : List (Str × Str)
  dataDir : List (Str × Str)
deriving DecidableEq

def lookupD (d : List (Str × Str)) (name : Str) : Option Str :=
  match d with
  | [] => none
  | (n, v) :: rest => if n = name then some v else lookupD rest name

/-- `fs.writeFileSync`: overwrite the existing entry or create a new one. -/
def upsertD (d : List (Str × Str)) (name c : Str) : List (Str × Str) :=
  match d with
  | [] => [(name, c)]
  | (n, v) :: rest => if n = name then (n, c) :: rest else (n, v) :: upsertD rest name c

/-- `fs.unlinkSync`. -/
def removeD (d : List (Str × Str)) (name : Str) : List (Str × Str) :=
  match d with
  | [] => []
  | (n, v) :: rest => if n = name then rest else (n, v) :: removeD rest name

def applyWrites (ws : List (Str × Str)) (d : List (Str × Str)) : List (Str × Str) :=
  ws.foldl (fun d w => upsertD d w.1 w.2) d

/-- `getMarkdownFiles`: the `.md` entries of the content directory, in
directory order. -/
def getMarkdownFiles (st : FileSys) : List (Str × Str) :=
  st.contentDir.filter (fun f => endsL (strOf ".md") f.1)

/-- Sequencing of `files.map(processMarkdownFile)`: the first failing file
throws, so the whole map yields nothing. -/
def seqOption : List (Option α) → Option (List α)
  | [] => some []
  | none :: _ => none
  | some a :: rest => (seqOption rest).map (a :: ·)

/-- All remaining markdown files parsed and rendered, in directory order
(the input `generateTypeScriptFiles` is regenerated from). -/
def remainingArticles (st : FileSys) : Option (List Article) :=
  seqOption ((getMarkdownFiles st).map (fun f => processMarkdownFile f.2))

inductive DelResult where
  /-- No generated module for the slug: the not-found error is logged and
  the function returns with the state untouched. -/
  | notFound (st : FileSys)
  /-- A thrown error escaped (parse or generation failure): the state may
  hold the unlink and any writes already performed. -/
  | crashed (st : FileSys)
  /-- Normal completion, with the writes performed after the unlink. -/
  | ok (writes : List (Str × Str)) (st : FileSys)
deriving DecidableEq

/-- `deleteArticle`: remove the generated module, then regenerate the
index (and every module) from the markdown files remaining on disk, or
write the hard-coded empty index when none remain. -/
def deleteArticle (st : FileSys) (slug : Str) : DelResult :=
  let name := slug ++ strOf ".ts"
  match lookupD st.dataDir name with
  | none => .notFound st
  | some _ =>
    let st1 : FileSys := ⟨st.contentDir, removeD st.dataDir name⟩
    let files := getMarkdownFiles st1
    if files.isEmpty then
      .ok [(strOf "index.ts", emptyIndexStr)]
        ⟨st1.contentDir, upsertD st1.dataDir (strOf "index.ts") emptyIndexStr⟩
    else
      match seqOption (files.map (fun f => processMarkdownFile f.2)) with
      | none => .crashed st1
      | some arts =>
        let p := generateTypeScriptFiles arts
        let st2 : FileSys := ⟨st1.contentDir, applyWrites p.1 st1.dataDir⟩
        if p.2 then .crashed st2 else .ok p.1 st2

inductive BuildResult where
  /-- `No markdown files found!`: logged, then a plain return. -/
  | noFiles (st : FileSys)
  /-- `Article not found`: logged, then a plain return. -/
  | notFound (st : FileSys)
  /-- A thrown error escaped; the state holds any writes already done. -/
  | crashed (st : FileSys)
  /-- Normal completion with the writes performed. -/
  | ok (writes : List (Str × Str)) (st : FileSys)
deriving DecidableEq

/-- `build(target)`: `target = "all"` builds every markdown file; a slug
target builds that file, and regenerates the whole set whenever a prior
generated index exists. -/
def build (st : FileSys) (target : Str) : BuildResult :=
  let files := getMarkdownFiles st
  if files.isEmpty then .noFiles st
  else
    let filesToProcess :=
      if target = strOf "all" then files
      else files.filter (fun f => f.1.take (f.1.length - 3) = target)
    if filesToProcess.isEmpty then .notFound st
    else
      let finish : List Article → BuildResult := fun arts =>
        let p := generateTypeScriptFiles arts
        let st2 : FileSys := ⟨st.contentDir, applyWrites p.1 st.dataDir⟩
        if p.2 then .crashed st2 else .ok p.1 st2
      match seqOption (filesToProcess.map (fun f => processMarkdownFile f.2)) with
      | none => .crashed st
      | some articles =>
        if target ≠ strOf "all" ∧ (lookupD st.dataDir (strOf "index.ts")).isSome then
          match seqOption (files.map (fun f => processMarkdownFile f.2)) with
          | none => .crashed st
          | some allArticles => finish allArticles
        else finish articles

/-- The non-interactive part of `main` over the argument list: `none` when
the invocation falls into an interactive prompt; otherwise the process
exit code, the final state, and the error lines logged in red. -/
def mainFlags (st : FileSys) (args : List Str) : Option (Nat × FileSys × List Str) :=
  if args.contains (strOf "--delete") then none
  else if args.contains (strOf "-d") || args.contains (strOf "--delete-slug") then
    let i := args.findIdx (fun a => a == strOf "-d" || a == strOf "--delete-slug")
    match args.get? (i + 1) with
    | none => some (1, st, [strOf "Please provide an article slug to delete"])
    | some slug =>
      if slug.isEmpty || startsL (strOf "-") slug then
        some (1, st, [strOf "Please provide an article slug to delete"])
      else
        match deleteArticle st slug with
        | .notFound st' => some (0, st', [strOf "Article not found: " ++ slug])
        | .crashed st' => some (1, st', [strOf "Error"])
        | .ok _ st' => some (0, st', [])
  else if args.contains (strOf "--all") || args.contains (strOf "-a") then
    match build st (strOf "all") with
    | .noFiles st' => some (0, st', [strOf "No markdown files found!"])
    | .notFound st' => some (0, st', [strOf "Article not found: all"])
    | .crashed st' => some (1, st', [strOf "Error"])
    | .ok _ st' => some (0, st', [])
  else
    match args with
    | [] => none
    | a0 :: _ =>
      if startsL (strOf "-") a0 then none
      else
        match build st a0 with
        | .noFiles st' => some (0, st', [strOf "No markdown files found!"])
        | .notFound st' => some (0, st', [strOf "Article not found: " ++ a0])
        | .crashed st' => some (1, st', [strOf "Error"])
        | .ok _ st' => some (0, st', [])

/-! ## Template-literal interpretation (for the escaping property) -/

/-- Cooked value of a single-character escape sequence in a template
literal (`\n`, `\t`, ..., and the identity for non-escape characters,
including the escaped delimiter and dollar sign). -/
def tmplUnesc (c : Char) : Char :=
  if c == 'n' then '\n'
  else if c == 't' then '\t'
  else if c == 'r' then '\r'
  else if c == 'b' then Char.ofNat 8
  else if c == 'f' then Char.ofNat 12
  else if c == 'v' then Char.ofNat 11
  else if c == '0' then Char.ofNat 0
  else c

/-- Read the emitted text as a JavaScript template literal body: scan up
to the closing (unescaped) backtick and return the cooked string.
`none` means the module is not syntactically valid as emitted: the
literal never closes, an interpolation `${` opens inside it, or an
escape is ill-formed (`\x`/`\u` without their digit forms, octal-style
digit escapes, which are syntax errors in untagged templates). -/
def tmplParse : Str → Option Str
  | [] => none
  | c :: rest =>
    if c == bq then some []
    else if c == '\\' then
      (match rest with
       | [] => none
       | d :: rest2 =>
         if d == 'x' || d == 'u' || (('1' : Char) ≤ d && d ≤ '9') then none
         else if d == '\n' || d == '\r' then tmplParse rest2
         else (tmplParse rest2).map (tmplUnesc d :: ·))
    else if c == '$' then
      (match rest with
       | d :: _ =>
         if d == Char.ofNat 123 then none
         else (tmplParse rest).map (c :: ·)
       | [] => (tmplParse rest).map (c :: ·))
    else (tmplParse rest).map (c :: ·)

/-! ## Derived views and concrete fixtures used by the claims -/

/-- The slugs of the index entries that the generator emits: one per
article whose frontmatter slug is a string. -/
def artSlugs (arts : List Article) : List Str :=
  arts.filterMap (fun a => match a.slug with | some (.scalar s) => some s | _ => none)

/-- A minimal valid article whose frontmatter slug is `a`. -/
def wMdA : Str := strOf "---\nslug: a\n---\nhi"

/-- A state holding the markdown source `a.md` and its generated module
`a.ts`. -/
def stC3 : FileSys := ⟨[(strOf "a.md", wMdA)], [(strOf "a.ts", strOf "x")]⟩

def delC3 : DelResult := deleteArticle stC3 (strOf "a")

def wsC3 : List (Str × Str) := match delC3 with | .ok w _ => w | _ => []

def stC3After : FileSys := match delC3 with | .ok _ s => s | _ => ⟨[], []⟩

def artsC3 : List Article := (remainingArticles stC3).getD []

/-- A state with one markdown source and an empty data directory. -/
def stW7 : FileSys := ⟨[(strOf "a.md", wMdA)], []⟩

/-- A state with no markdown sources but a stale generated module. -/
def stW8 : FileSys := ⟨[], [(strOf "a.ts", strOf "x"), (strOf "index.ts", strOf "y")]⟩

/-- The list-item fragment produced for the line `- item`. -/
def liItemFrag : Str := liOpen ++ liMid ++ strOf "item" ++ liClose

/-- A state holding one markdown source and a full generated set. -/
def stC4 : FileSys :=
  ⟨[(strOf "a.md", wMdA)], [(strOf "a.ts", strOf "x"), (strOf "index.ts", strOf "y")]⟩

def bldW7 : BuildResult := build stW7 (strOf "all")

def wsW7 : List (Str × Str) := match bldW7 with | .ok w _ => w | _ => []

def stW7After : FileSys := match bldW7 with | .ok _ s => s | _ => ⟨[], []⟩

/-! ## General lemmas -/

theorem replChar_cons (t : Char) (r : Str) (c : Char) (cs : Str) :
    replChar t r (c :: cs) = (if c == t then r else [c]) ++ replChar t r cs := rfl

theorem replChar_append (t : Char) (r s1 s2 : Str) :
    replChar t r (s1 ++ s2) = replChar t r s1 ++ replChar t r s2 := by
  induction s1 with
  | nil => rfl
  | cons c cs ih => simp [replChar_cons, ih]

theorem startsL_iff : ∀ (p s : Str), startsL p s = true ↔ ∃ t, s = p ++ t
  | [], s => by simp [startsL]
  | c :: cs, [] => by simp [startsL]
  | c :: cs, d :: ds => by
    simp only [startsL, Bool.and_eq_true, beq_iff_eq, startsL_iff cs ds, List.cons_append]
    constructor
    · rintro ⟨rfl, t, rfl⟩; exact ⟨t, rfl⟩
    · rintro ⟨t, h⟩
      rw [List.cons.injEq] at h
      exact ⟨h.1.symm, t, h.2⟩

theorem lookupD_upsertD_self (d : List (Str × Str)) (n c : Str) :
    lookupD (upsertD d n c) n = some c := by
  induction d with
  | nil => simp [upsertD, lookupD]
  | cons kv rest ih =>
    obtain ⟨k, v⟩ := kv
    by_cases h : k = n
    · simp [upsertD, lookupD, h]
    · simp [upsertD, lookupD, h, ih]

theorem lookupD_upsertD_ne (d : List (Str × Str)) (n c m : Str) (h : n ≠ m) :
    lookupD (upsertD d n c) m = lookupD d m := by
  induction d with
  | nil => simp [upsertD, lookupD, h]
  | cons kv rest ih =>
    obtain ⟨k, v⟩ := kv
    by_cases hk : k = n
    · subst hk; simp [upsertD, lookupD, h]
    · simp only [upsertD, lookupD, if_neg hk]
      by_cases hm : k = m <;> simp [hm, ih]

theorem applyWrites_append (ws1 ws2 : List (Str × Str)) (d : List (Str × Str)) :
    applyWrites (ws1 ++ ws2) d = applyWrites ws2 (applyWrites ws1 d) := by
  simp [applyWrites, List.foldl_append]

theorem lookupD_applyWrites_last (ws : List (Str × Str)) (d : List (Str × Str)) (n c : Str) :
    lookupD (applyWrites (ws ++ [(n, c)]) d) n = some c := by
  rw [applyWrites_append]
  simp [applyWrites, lookupD_upsertD_self]

theorem lookupD_applyWrites_mono (ws : List (Str × Str)) (d : List (Str × Str)) (n : Str)
    (h : (lookupD d n).isSome = true) :
    (lookupD (applyWrites ws d) n).isSome = true := by
  induction ws generalizing d with
  | nil => simpa [applyWrites] using h
  | cons w ws ih =>
    simp only [applyWrites, List.foldl_cons] at *
    apply ih
    by_cases hw : w.1 = n
    · subst hw; simp [lookupD_upsertD_self]
    · rwa [lookupD_upsertD_ne _ _ _ _ hw]

theorem lookupD_applyWrites_isSome_of_mem (ws : List (Str × Str)) (d : List (Str × Str))
    (n c : Str) (h : (n, c) ∈ ws) :
    (lookupD (applyWrites ws d) n).isSome = true := by
  induction ws generalizing d with
  | nil => cases h
  | cons w ws ih =>
    simp only [applyWrites, List.foldl_cons] at *
    rcases List.mem_cons.mp h with h | h
    · subst h
      exact lookupD_applyWrites_mono ws _ n (by simp [lookupD_upsertD_self])
    · exact ih _ h

theorem seqOption_length {α : Type} :
    ∀ (xs : List (Option α)) (ys : List α), seqOption xs = some ys → ys.length = xs.length := by
  intro xs
  induction xs with
  | nil =>
    intro ys h
    simp only [seqOption, Option.some.injEq] at h
    subst h; rfl
  | cons x rest ih =>
    intro ys h
    cases x with
    | none => simp [seqOption] at h
    | some a =>
      simp only [seqOption] at h
      cases hseq : seqOption rest with
      | none => rw [hseq] at h; simp at h
      | some zs =>
        rw [hseq] at h
        obtain rfl : a :: zs = ys := by simpa using h
        simp [ih zs hseq]

theorem genModules_mem :
    ∀ (arts : List Article) (a : Article) (w : Str × Str),
      (genModules arts).2 = false → a ∈ arts → moduleWrite a = some w →
      w ∈ (genModules arts).1 := by
  intro arts
  induction arts with
  | nil => intro a w _ h; cases h
  | cons b rest ih =>
    intro a w hcrash hmem hw
    cases hwb : moduleWrite b with
    | none => rw [genModules, hwb] at hcrash; simp at hcrash
    | some wb =>
      rw [genModules, hwb] at hcrash ⊢
      simp only [List.mem_cons]
      rcases List.mem_cons.mp hmem with h | h
      · subst h; rw [hw] at hwb; exact Or.inl (Option.some.inj hwb)
      · exact Or.inr (ih a w (by simpa using hcrash) h hw)

theorem generate_ok_eq (arts : List Article) (ws : List (Str × Str))
    (h : generateTypeScriptFiles arts = (ws, false)) :
    (genModules arts).2 = false ∧
      ws = (genModules arts).1 ++ [(strOf "index.ts", indexContent arts)] := by
  rw [generateTypeScriptFiles] at h
  cases hc : (genModules arts).2 with
  | true => rw [hc] at h; simp at h
  | false =>
    rw [hc] at h
    simp only [Bool.false_eq_true, if_false, Prod.mk.injEq] at h
    exact ⟨rfl, h.1.symm⟩

theorem getMarkdownFiles_set_data (st : FileSys) (d : List (Str × Str)) :
    getMarkdownFiles ⟨st.contentDir, d⟩ = getMarkdownFiles st := rfl

/-- Case analysis of a normally-completing `deleteArticle`: either no
markdown files remained (the empty index is written), or the whole set
was regenerated from the remaining files. -/
theorem deleteArticle_ok_cases (st : FileSys) (slug : Str) (ws : List (Str × Str))
    (st' : FileSys) (h : deleteArticle st slug = .ok ws st') :
    (getMarkdownFiles st = [] ∧ ws = [(strOf "index.ts", emptyIndexStr)] ∧
      st' = ⟨st.contentDir,
        upsertD (removeD st.dataDir (slug ++ strOf ".ts")) (strOf "index.ts") emptyIndexStr⟩) ∨
    (getMarkdownFiles st ≠ [] ∧ ∃ arts, remainingArticles st = some arts ∧
      generateTypeScriptFiles arts = (ws, false) ∧
      st' = ⟨st.contentDir, applyWrites ws (removeD st.dataDir (slug ++ strOf ".ts"))⟩) := by
  rw [deleteArticle] at h
  split at h
  · cases h
  · simp only [getMarkdownFiles_set_data] at h
    split at h
    · rename_i hfe
      rw [DelResult.ok.injEq] at h
      exact Or.inl ⟨List.isEmpty_iff.mp hfe, h.1.symm, h.2.symm⟩
    · rename_i hfe
      split at h
      · cases h
      · rename_i arts hseq
        split at h
        · cases h
        · rename_i hp
          rw [DelResult.ok.injEq] at h
          rw [Bool.not_eq_true] at hp
          refine Or.inr ⟨fun hnil => ?_, arts, hseq, ?_, ?_⟩
          · rw [hnil] at hfe; simp [List.isEmpty] at hfe
          · rw [← h.1, ← hp]
          · rw [← h.2, h.1]

/-- C4: invoking delete-one on a slug with no corresponding generated
module reports the not-found error and leaves the whole output state
(the index file and every other generated module) unmodified. -/
theorem c4_delete_missing_is_noop (st : FileSys) (slug : Str)
    (h : lookupD st.dataDir (slug ++ strOf ".ts") = none) :
    deleteArticle st slug = .notFound st := by
  rw [deleteArticle, h]

theorem c4_witness :
    lookupD stC4.dataDir (strOf "zz" ++ strOf ".ts") = none ∧
      deleteArticle stC4 (strOf "zz") = .notFound stC4 :=
  ⟨by decide, c4_delete_missing_is_noop stC4 (strOf "zz") (by decide)⟩

/-- C8: deleting the last remaining article (no markdown files on disk)
is not an error: the index module is still written, and the written text
declares an empty slug mapping, an empty metadata listing, and empty
category and tag vocabularies. -/
theorem c8_delete_last_writes_empty_index (st : FileSys) (slug : Str)
    (hmod : (lookupD st.dataDir (slug ++ strOf ".ts")).isSome = true)
    (hmd : getMarkdownFiles st = []) :
    deleteArticle st slug =
      .ok [(strOf "index.ts", emptyIndexStr)]
        ⟨st.contentDir,
          upsertD (removeD st.dataDir (slug ++ strOf ".ts")) (strOf "index.ts") emptyIndexStr⟩ ∧
    lookupD (upsertD (removeD st.dataDir (slug ++ strOf ".ts")) (strOf "index.ts")
        emptyIndexStr) (strOf "index.ts") = some emptyIndexStr ∧
    hasSub (strOf "export const blogPosts: Record<string, BlogPost> = \x7b\x7d")
        emptyIndexStr = true ∧
    hasSub (strOf "export const blogPostsMeta: BlogPostMeta[] = []") emptyIndexStr = true ∧
    hasSub (strOf "export function getAllCategories(): string[] \x7b\n  return []")
        emptyIndexStr = true ∧
    hasSub (strOf "export function getAllTags(): string[] \x7b\n  return []")
        emptyIndexStr = true := by
  obtain ⟨v, hv⟩ := Option.isSome_iff_exists.mp hmod
  refine ⟨?_, lookupD_upsertD_self _ _ _, by decide, by decide, by decide, by decide⟩
  rw [deleteArticle, hv]
  simp only [getMarkdownFiles_set_data, hmd]
  rfl

theorem c8_witness :
    (lookupD stW8.dataDir (strOf "a" ++ strOf ".ts")).isSome = true ∧
      getMarkdownFiles stW8 = [] ∧
      deleteArticle stW8 (strOf "a") =
        .ok [(strOf "index.ts", emptyIndexStr)]
          ⟨stW8.contentDir,
            upsertD (removeD stW8.dataDir (strOf "a" ++ strOf ".ts")) (strOf "index.ts")
              emptyIndexStr⟩ :=
  ⟨by decide, by decide,
    (c8_delete_last_writes_empty_index stW8 (strOf "a") (by decide) (by decide)).1⟩

theorem findCloseDelim_some_of_split :
    ∀ (a b : Str), ∃ p, findCloseDelim (a ++ fmCloseDelim ++ b) = some p := by
  intro a
  induction a with
  | nil =>
    intro b
    have hpre : startsL fmCloseDelim (fmCloseDelim ++ b) = true :=
      (startsL_iff _ _).mpr ⟨b, rfl⟩
    cases hfm : fmCloseDelim ++ b with
    | nil => simp [fmCloseDelim, strOf] at hfm
    | cons c cs =>
      refine ⟨([], (c :: cs).drop 5), ?_⟩
      rw [List.nil_append, hfm, findCloseDelim, if_pos (hfm ▸ hpre)]
  | cons c a ih =>
    intro b
    obtain ⟨p, hp⟩ := ih b
    by_cases hpre : startsL fmCloseDelim (c :: (a ++ fmCloseDelim ++ b)) = true
    · exact ⟨([], (c :: (a ++ fmCloseDelim ++ b)).drop 5), by
        simp only [List.cons_append, List.append_assoc] at *
        rw [findCloseDelim, if_pos hpre]⟩
    · refine ⟨(c :: p.1, p.2), ?_⟩
      simp only [List.cons_append, List.append_assoc] at *
      rw [findCloseDelim, if_neg hpre, hp]

theorem findCloseDelim_split_of_some :
    ∀ (l : Str) (p : Str × Str), findCloseDelim l = some p → ∃ a b, l = a ++ fmCloseDelim ++ b := by
  intro l
  induction l with
  | nil => intro p h; cases h
  | cons c cs ih =>
    intro p h
    rw [findCloseDelim] at h
    by_cases hpre : startsL fmCloseDelim (c :: cs) = true
    · obtain ⟨t, ht⟩ := (startsL_iff _ _).mp hpre
      exact ⟨[], t, by rw [ht]; simp⟩
    · rw [if_neg hpre] at h
      cases hrec : findCloseDelim cs with
      | none => rw [hrec] at h; cases h
      | some q =>
        obtain ⟨a, b, hab⟩ := ih q hrec
        exact ⟨c :: a, b, by rw [hab]; simp⟩

/-- C5: the frontmatter parser fails exactly when the input does not
start with the opening delimiter line followed (somewhere) by the
closing delimiter line; whenever the input decomposes that way, it
returns a record and a body without error. -/
theorem c5_parse_fails_iff_no_delims (s : Str) :
    (∃ r, parseFrontmatter s = .ok r) ↔
      ∃ a b, s = fmOpenDelim ++ a ++ fmCloseDelim ++ b := by
  constructor
  · rintro ⟨r, hr⟩
    rw [parseFrontmatter] at hr
    cases hm : matchFrontmatter s with
    | none => rw [hm] at hr; cases hr
    | some p =>
      rw [matchFrontmatter] at hm
      by_cases hpre : startsL fmOpenDelim s = true
      · rw [if_pos hpre] at hm
        obtain ⟨t, ht⟩ := (startsL_iff _ _).mp hpre
        obtain ⟨a, b, hab⟩ := findCloseDelim_split_of_some _ p hm
        refine ⟨a, b, ?_⟩
        have hdrop : s.drop 4 = t := by
          rw [ht]
          have : fmOpenDelim.length = 4 := by decide
          rw [← this, List.drop_left]
        rw [ht, ← hdrop, hab]
        simp
      · rw [if_neg hpre] at hm; cases hm
  · rintro ⟨a, b, hab⟩
    have hpre : startsL fmOpenDelim s = true :=
      (startsL_iff _ _).mpr ⟨a ++ fmCloseDelim ++ b, by rw [hab]; simp⟩
    have hdrop : s.drop 4 = a ++ fmCloseDelim ++ b := by
      rw [hab]
      have h4 : fmOpenDelim.length = 4 := by decide
      rw [List.append_assoc, List.append_assoc, ← h4, List.drop_left, ← List.append_assoc]
    obtain ⟨p, hp⟩ := findCloseDelim_some_of_split a b
    rw [parseFrontmatter, matchFrontmatter, if_pos hpre, hdrop, hp]
    exact ⟨_, rfl⟩

theorem escapeTemplate_cons (c : Char) (s : Str) :
    escapeTemplate (c :: s) =
      (if c = bq then ['\\', bq] else if c = '$' then ['\\', '$'] else [c]) ++
        escapeTemplate s := by
  show replChar '$' ['\\', '$'] (replChar bq ['\\', bq] (c :: s)) = _
  rw [replChar_cons, replChar_append]
  by_cases h1 : c = bq
  · subst h1
    rw [if_pos (by decide), if_pos rfl]
    rfl
  · have hb : (c == bq) = false := by simp [beq_eq_false_iff_ne, h1]
    simp only [hb, Bool.false_eq_true, if_false]
    rw [if_neg h1]
    by_cases h2 : c = '$'
    · subst h2; rw [if_pos rfl]; rfl
    · rw [if_neg h2]
      have hc : replChar '$' ['\\', '$'] [c] = [c] := by
        simp [replChar_cons, replChar, beq_eq_false_iff_ne, h2]
      rw [hc]
      rfl

theorem tmplParse_cons_plain (c : Char) (hc1 : c ≠ bq) (hc2 : c ≠ '\\') (hc3 : c ≠ '$')
    (X : Str) : tmplParse (c :: X) = (tmplParse X).map (c :: ·) := by
  rw [tmplParse.eq_def]
  simp [beq_eq_false_iff_ne, hc1, hc2, hc3]

theorem tmplParse_esc_bq (X : Str) :
    tmplParse ('\\' :: bq :: X) = (tmplParse X).map (bq :: ·) := by
  rw [tmplParse.eq_def]
  have h1 : ('\\' == bq) = false := by decide
  have h3 : (bq == 'x' || bq == 'u' || (('1' : Char) ≤ bq && bq ≤ '9')) = false := by decide
  have h4 : (bq == '\n' || bq == '\r') = false := by decide
  have h5 : tmplUnesc bq = bq := by decide
  simp [h1, h3, h4, h5]

theorem tmplParse_esc_dollar (X : Str) :
    tmplParse ('\\' :: '$' :: X) = (tmplParse X).map ('$' :: ·) := by
  rw [tmplParse.eq_def]
  have h1 : ('\\' == bq) = false := by decide
  have h3 : ('$' == 'x' || '$' == 'u' || (('1' : Char) ≤ '$' && '$' ≤ '9')) = false := by decide
  have h4 : ('$' == '\n' || '$' == '\r') = false := by decide
  have h5 : tmplUnesc '$' = '$' := by decide
  simp [h1, h3, h4, h5]

/-- C2 counterexample: a rendered markup consisting of one backslash is
passed through `escapeTemplate` unchanged, so the emitted literal ends in
a backslash that escapes the closing delimiter: the module is not
syntactically valid and the literal does not round-trip. -/
theorem c2_counterexample :
    tmplParse (escapeTemplate ['\\'] ++ [bq]) ≠ some ['\\'] := by decide

/-- C2 (amended): `escapeTemplate` escapes the literal-delimiter
character (backtick) and the interpolation-introducing character (`$`),
but not the escape-introducing backslash; hence the emitted literal is
valid and round-trips exactly for markup containing no backslash. -/
theorem c2_escaped_literal_roundtrip (s : Str) (h : '\\' ∉ s) :
    tmplParse (escapeTemplate s ++ [bq]) = some s := by
  induction s with
  | nil => decide
  | cons c cs ih =>
    have hc : c ≠ '\\' := fun hh => h (hh ▸ List.mem_cons_self c cs)
    have hcs : '\\' ∉ cs := fun hm => h (List.mem_cons_of_mem _ hm)
    rw [escapeTemplate_cons]
    by_cases h1 : c = bq
    · subst h1
      rw [if_pos rfl]
      simp only [List.cons_append, List.nil_append, List.append_assoc]
      rw [tmplParse_esc_bq, ih hcs]
      rfl
    · rw [if_neg h1]
      by_cases h2 : c = '$'
      · subst h2
        rw [if_pos rfl]
        simp only [List.cons_append, List.nil_append, List.append_assoc]
        rw [tmplParse_esc_dollar, ih hcs]
        rfl
      · rw [if_neg h2]
        simp only [List.cons_append, List.nil_append]
        rw [tmplParse_cons_plain c h1 hc h2, ih hcs]
        rfl

theorem c2_witness :
    ('\\' ∉ strOf "a`b$c") ∧
      tmplParse (escapeTemplate (strOf "a`b$c") ++ [bq]) = some (strOf "a`b$c") :=
  ⟨by decide, c2_escaped_literal_roundtrip (strOf "a`b$c") (by decide)⟩

theorem artSlugs_mem (arts : List Article) (slug : Str) (h : slug ∈ artSlugs arts) :
    ∃ a ∈ arts, a.slug = some (.scalar slug) := by
  rw [artSlugs] at h
  obtain ⟨a, hamem, hfa⟩ := List.mem_filterMap.mp h
  refine ⟨a, hamem, ?_⟩
  cases ha : a.slug with
  | none => rw [ha] at hfa; simp at hfa
  | some v =>
    cases v with
    | scalar s =>
      rw [ha] at hfa
      simp only [Option.some.injEq] at hfa
      rw [hfa]
    | arr xs => rw [ha] at hfa; simp at hfa

theorem artSlugs_not_mem (arts : List Article) (slug : Str)
    (h : ∀ a ∈ arts, a.slug ≠ some (.scalar slug)) : slug ∉ artSlugs arts :=
  fun hmem => by
    obtain ⟨a, hamem, ha⟩ := artSlugs_mem arts slug hmem
    exact h a hamem ha

/-- C3 counterexample: deleting slug `a` succeeds (its module existed and
was removed), but the markdown source `a.md` is still on disk, so the
regenerated index again holds an entry for `a` (the emitted index text
contains the mapping line for slug `a`). -/
theorem c3_counterexample :
    deleteArticle stC3 (strOf "a") = .ok wsC3 stC3After ∧
    remainingArticles stC3 = some artsC3 ∧
    strOf "a" ∈ artSlugs artsC3 ∧
    lookupD stC3After.dataDir (strOf "index.ts") = some (indexContent artsC3) ∧
    hasSub (strOf "  \x27a\x27: a,") (indexContent artsC3) = true :=
  ⟨by decide, by decide, by decide, by decide, by decide⟩

/-- C3 (amended): after a successful delete-one(slug), the regenerated
index is written from exactly the markdown files remaining on disk — one
entry per remaining file, so the index size equals the remaining file
count; it contains no entry for slug provided no remaining markdown
file's frontmatter declares that slug (in particular, once slug's own
markdown source has been removed). -/
theorem c3_delete_regenerates_index (st : FileSys) (slug : Str) (ws : List (Str × Str))
    (st' : FileSys) (h : deleteArticle st slug = .ok ws st')
    (hne : getMarkdownFiles st ≠ []) :
    ∃ arts, remainingArticles st = some arts ∧
      lookupD st'.dataDir (strOf "index.ts") = some (indexContent arts) ∧
      arts.length = (getMarkdownFiles st).length ∧
      ((∀ a ∈ arts, a.slug ≠ some (.scalar slug)) → slug ∉ artSlugs arts) := by
  rcases deleteArticle_ok_cases st slug ws st' h with hcase | ⟨_, arts, hseq, hgen, hst⟩
  · exact absurd hcase.1 hne
  · obtain ⟨hcrash, hws⟩ := generate_ok_eq arts ws hgen
    refine ⟨arts, hseq, ?_, ?_, artSlugs_not_mem arts slug⟩
    · rw [hst]
      show lookupD (applyWrites ws (removeD st.dataDir (slug ++ strOf ".ts")))
          (strOf "index.ts") = some (indexContent arts)
      rw [hws]
      exact lookupD_applyWrites_last _ _ _ _
    · rw [remainingArticles] at hseq
      have := seqOption_length _ arts hseq
      simpa using this

theorem c3_witness :
    ∃ arts, remainingArticles stC3 = some arts ∧
      lookupD stC3After.dataDir (strOf "index.ts") = some (indexContent arts) ∧
      arts.length = (getMarkdownFiles stC3).length ∧
      ((∀ a ∈ arts, a.slug ≠ some (.scalar (strOf "a"))) → strOf "a" ∉ artSlugs arts) :=
  c3_delete_regenerates_index stC3 (strOf "a") wsC3 stC3After (by decide) (by decide)

/-- C9: delete-one removes only the generated module, never the markdown
source; whenever a remaining markdown file still declares the slug, the
successful delete immediately rewrites that slug's module and the index
entry during the regeneration step. -/
theorem c9_delete_is_impermanent (st : FileSys) (slug : Str) (ws : List (Str × Str))
    (st' : FileSys) (h : deleteArticle st slug = .ok ws st')
    (arts : List Article) (ha : remainingArticles st = some arts)
    (hs : slug ∈ artSlugs arts) :
    st'.contentDir = st.contentDir ∧
    (∃ a ∈ arts, a.slug = some (.scalar slug) ∧
      (slug ++ strOf ".ts", moduleContent slug a) ∈ ws) ∧
    (lookupD st'.dataDir (slug ++ strOf ".ts")).isSome = true ∧
    lookupD st'.dataDir (strOf "index.ts") = some (indexContent arts) := by
  rcases deleteArticle_ok_cases st slug ws st' h with ⟨hmd, _, _⟩ | ⟨_, arts', hseq, hgen, hst⟩
  · rw [remainingArticles, hmd] at ha
    simp only [List.map_nil, seqOption, Option.some.injEq] at ha
    rw [← ha] at hs
    cases hs
  · have heq : arts' = arts := Option.some.inj (hseq.symm.trans ha)
    rw [heq] at hgen
    obtain ⟨hcrash, hws⟩ := generate_ok_eq arts ws hgen
    obtain ⟨a, hamem, haslug⟩ := artSlugs_mem arts slug hs
    have hmw : moduleWrite a = some (slug ++ strOf ".ts", moduleContent slug a) := by
      rw [moduleWrite, haslug]
    have hmem : (slug ++ strOf ".ts", moduleContent slug a) ∈ ws := by
      rw [hws]
      exact List.mem_append_left _ (genModules_mem arts a _ hcrash hamem hmw)
    refine ⟨by rw [hst], ⟨a, hamem, haslug, hmem⟩, ?_, ?_⟩
    · rw [hst]
      exact lookupD_applyWrites_isSome_of_mem ws _ _ _ hmem
    · rw [hst]
      show lookupD (applyWrites ws (removeD st.dataDir (slug ++ strOf ".ts")))
          (strOf "index.ts") = some (indexContent arts)
      rw [hws]
      exact lookupD_applyWrites_last _ _ _ _

theorem c9_witness :
    stC3After.contentDir = stC3.contentDir ∧
    (∃ a ∈ artsC3, a.slug = some (.scalar (strOf "a")) ∧
      (strOf "a" ++ strOf ".ts", moduleContent (strOf "a") a) ∈ wsC3) ∧
    (lookupD stC3After.dataDir (strOf "a" ++ strOf ".ts")).isSome = true ∧
    lookupD stC3After.dataDir (strOf "index.ts") = some (indexContent artsC3) :=
  c9_delete_is_impermanent stC3 (strOf "a") wsC3 stC3After (by decide) artsC3
    (by decide) (by decide)

theorem remainingArticles_set_data (st : FileSys) (d : List (Str × Str)) :
    remainingArticles ⟨st.contentDir, d⟩ = remainingArticles st := rfl

theorem build_all_cases (st : FileSys) (ws : List (Str × Str)) (st1 : FileSys)
    (h : build st (strOf "all") = .ok ws st1) :
    getMarkdownFiles st ≠ [] ∧ ∃ arts, remainingArticles st = some arts ∧
      generateTypeScriptFiles arts = (ws, false) ∧
      st1 = ⟨st.contentDir, applyWrites ws st.dataDir⟩ := by
  rw [build] at h
  simp only [eq_self_iff_true, if_true, ne_eq, not_true_eq_false, false_and, if_false] at h
  split at h
  · cases h
  · rename_i hfe
    split at h
    · cases h
    · rename_i arts hseq
      split at h
      · cases h
      · rename_i hp
        rw [BuildResult.ok.injEq] at h
        rw [Bool.not_eq_true] at hp
        refine ⟨fun hnil => ?_, arts, hseq, ?_, ?_⟩
        · rw [hnil] at hfe; simp [List.isEmpty] at hfe
        · rw [← h.1, ← hp]
        · rw [← h.2, h.1]

theorem build_all_of (st : FileSys) (arts : List Article) (ws : List (Str × Str))
    (hne : getMarkdownFiles st ≠ []) (hseq : remainingArticles st = some arts)
    (hgen : generateTypeScriptFiles arts = (ws, false)) :
    build st (strOf "all") = .ok ws ⟨st.contentDir, applyWrites ws st.dataDir⟩ := by
  have hfe : (getMarkdownFiles st).isEmpty = false := by
    cases hmd : getMarkdownFiles st with
    | nil => exact absurd hmd hne
    | cons x xs => rfl
  rw [build]
  simp only [eq_self_iff_true, if_true, ne_eq, not_true_eq_false, false_and, if_false, hfe,
    Bool.false_eq_true]
  rw [remainingArticles] at hseq
  rw [hseq]
  simp [hgen]

/-- C7: running build-all twice with no source changes is idempotent: the
first successful run leaves the markdown sources untouched, and the
second run performs byte-for-byte the same generated-module writes (every
per-article module and the index module). -/
theorem c7_build_all_idempotent (st : FileSys) (ws : List (Str × Str)) (st1 : FileSys)
    (h : build st (strOf "all") = .ok ws st1) :
    st1.contentDir = st.contentDir ∧
    build st1 (strOf "all") = .ok ws ⟨st1.contentDir, applyWrites ws st1.dataDir⟩ := by
  obtain ⟨hne, arts, hseq, hgen, hst1⟩ := build_all_cases st ws st1 h
  have hc : st1.contentDir = st.contentDir := by rw [hst1]
  refine ⟨hc, ?_⟩
  apply build_all_of st1 arts ws
  · show getMarkdownFiles st1 ≠ []
    have : getMarkdownFiles st1 = getMarkdownFiles st := by
      rw [hst1, getMarkdownFiles_set_data]
    rw [this]; exact hne
  · have : remainingArticles st1 = remainingArticles st := by
      rw [hst1, remainingArticles_set_data]
    rw [this]; exact hseq
  · exact hgen

theorem c7_witness :
    stW7After.contentDir = stW7.contentDir ∧
    build stW7After (strOf "all") =
      .ok wsW7 ⟨stW7After.contentDir, applyWrites wsW7 stW7After.dataDir⟩ :=
  c7_build_all_idempotent stW7 wsW7 stW7After (by decide)

/-- C1 counterexample: a flag-driven `-d <slug>` invocation whose slug has
no generated module, and a bare `<slug>` invocation whose slug has no
markdown file, both report the not-found error but exit with status 0. -/
theorem c1_counterexample :
    mainFlags stC3 [strOf "-d", strOf "zz"] =
        some (0, stC3, [strOf "Article not found: " ++ strOf "zz"]) ∧
    mainFlags stC3 [strOf "zz"] =
        some (0, stC3, [strOf "Article not found: " ++ strOf "zz"]) :=
  ⟨by decide, by decide⟩

/-- C1 (amended): a non-interactive flag-driven invocation that references
a slug with no corresponding generated module (`-d <slug>`) or no
corresponding markdown file (bare `<slug>`) reports the not-found error
to the operator, but the process exits with status zero and the state is
unchanged; only a missing or flag-like slug argument exits non-zero. -/
theorem c1_not_found_reports_and_exits_zero (st : FileSys) (slug : Str)
    (h1 : lookupD st.dataDir (slug ++ strOf ".ts") = none)
    (h2 : startsL (strOf "-") slug = false)
    (h3 : slug ≠ [])
    (h4 : getMarkdownFiles st ≠ [])
    (h5 : ∀ f ∈ getMarkdownFiles st, ¬ f.1.take (f.1.length - 3) = slug)
    (h6 : slug ≠ strOf "all") :
    mainFlags st [strOf "-d", slug] =
        some (0, st, [strOf "Article not found: " ++ slug]) ∧
    mainFlags st [slug] =
        some (0, st, [strOf "Article not found: " ++ slug]) := by
  have hflag : ∀ x : Str, startsL (strOf "-") x = true → slug ≠ x := by
    intro x hx heq
    rw [heq, hx] at h2
    cases h2
  have hd1 : slug ≠ strOf "--delete" := hflag _ (by decide)
  have hd2 : slug ≠ strOf "-d" := hflag _ (by decide)
  have hd3 : slug ≠ strOf "--delete-slug" := hflag _ (by decide)
  have hd4 : slug ≠ strOf "--all" := hflag _ (by decide)
  have hd5 : slug ≠ strOf "-a" := hflag _ (by decide)
  have hie : slug.isEmpty = false := by
    cases slug with
    | nil => exact absurd rfl h3
    | cons c cs => rfl
  have hdel : deleteArticle st slug = .notFound st := by rw [deleteArticle, h1]
  constructor
  · rw [mainFlags]
    rw [if_neg (by simp [Ne.symm hd1, (by decide : ¬ strOf "--delete" = strOf "-d")] :
      ¬([strOf "-d", slug].contains (strOf "--delete")) = true)]
    rw [if_pos (by simp : ([strOf "-d", slug].contains (strOf "-d") ||
      [strOf "-d", slug].contains (strOf "--delete-slug")) = true)]
    have hidx : [strOf "-d", slug].findIdx
        (fun a => a == strOf "-d" || a == strOf "--delete-slug") = 0 := by
      simp [List.findIdx_cons]
    rw [hidx]
    show (match [strOf "-d", slug].get? 1 with
      | none => some (1, st, [strOf "Please provide an article slug to delete"])
      | some slug2 =>
        if slug2.isEmpty || startsL (strOf "-") slug2 then
          some (1, st, [strOf "Please provide an article slug to delete"])
        else
          match deleteArticle st slug2 with
          | .notFound st' => some (0, st', [strOf "Article not found: " ++ slug2])
          | .crashed st' => some (1, st', [strOf "Error"])
          | .ok _ st' => some (0, st', [])) = _
    have hget : [strOf "-d", slug].get? 1 = some slug := rfl
    rw [hget]
    simp only [hie, h2, Bool.or_self, Bool.false_eq_true, if_false, hdel]
  · have hbuild : build st slug = .notFound st := by
      rw [build]
      have hfe : (getMarkdownFiles st).isEmpty = false := by
        cases hmd : getMarkdownFiles st with
        | nil => exact absurd hmd h4
        | cons x xs => rfl
      simp only [hfe, Bool.false_eq_true, if_false, if_neg h6]
      have hfilter : (getMarkdownFiles st).filter
          (fun f => f.1.take (f.1.length - 3) = slug) = [] := by
        rw [List.filter_eq_nil_iff]
        intro f hf
        simp [h5 f hf]
      rw [hfilter]
      rfl
    rw [mainFlags]
    rw [if_neg (by simp [Ne.symm hd1] : ¬([slug].contains (strOf "--delete")) = true)]
    rw [if_neg (by simp [Ne.symm hd2, Ne.symm hd3] : ¬(([slug].contains (strOf "-d") ||
      [slug].contains (strOf "--delete-slug")) = true))]
    rw [if_neg (by simp [Ne.symm hd4, Ne.symm hd5] : ¬(([slug].contains (strOf "--all") ||
      [slug].contains (strOf "-a")) = true))]
    show (if startsL (strOf "-") slug then none else
      match build st slug with
      | .noFiles st' => some (0, st', [strOf "No markdown files found!"])
      | .notFound st' => some (0, st', [strOf "Article not found: " ++ slug])
      | .crashed st' => some (1, st', [strOf "Error"])
      | .ok _ st' => some (0, st', [])) = _
    simp only [h2, Bool.false_eq_true, if_false, hbuild]

theorem c1_witness :
    mainFlags stC4 [strOf "-d", strOf "zz"] =
        some (0, stC4, [strOf "Article not found: " ++ strOf "zz"]) ∧
    mainFlags stC4 [strOf "zz"] =
        some (0, stC4, [strOf "Article not found: " ++ strOf "zz"]) :=
  c1_not_found_reports_and_exits_zero stC4 (strOf "zz") (by decide) (by decide)
    (by decide) (by decide) (by decide) (by decide)

/-- C6: three consecutive `- item` lines are wrapped in exactly one list
container holding three item fragments, while `- item`, a blank line, and
`- item` produce two separate single-item containers (run detection is
adjacency-based). -/
theorem c6_list_run_wrapping :
    markdownToHtml (strOf "- item\n- item\n- item") =
      ulOpen ++ liItemFrag ++ '\n' :: liItemFrag ++ '\n' :: liItemFrag ++ strOf "</ul>" ∧
    markdownToHtml (strOf "- item\n\n- item") =
      ulOpen ++ liItemFrag ++ strOf "\n</ul>\n" ++ ulOpen ++ liItemFrag ++ strOf "</ul>" :=
  ⟨by decide, by decide⟩

theorem startsL_append_nl : ∀ (m t s2 : Str), '\n' ∉ m → '\n' ∉ t →
    startsL m (t ++ '\n' :: s2) = startsL m t
  | [], _, _, _, _ => rfl
  | d :: ms, [], s2, hm, _ => by
    have hd : d ≠ '\n' := fun h => hm (h ▸ List.mem_cons_self d ms)
    show (d == '\n' && startsL ms s2) = false
    simp [beq_eq_false_iff_ne, hd]
  | d :: ms, e :: ts, s2, hm, ht => by
    have hms : '\n' ∉ ms := fun h => hm (List.mem_cons_of_mem _ h)
    have hts : '\n' ∉ ts := fun h => ht (List.mem_cons_of_mem _ h)
    show (d == e && startsL ms (ts ++ '\n' :: s2)) = (d == e && startsL ms ts)
    rw [startsL_append_nl ms ts s2 hms hts]

theorem emFind_rest_length (m : Str) :
    ∀ (l : Str) (p : Str × Str), emFind m l = some p → p.2.length ≤ l.length := by
  intro l
  induction l with
  | nil => intro p h; cases h
  | cons c cs ih =>
    intro p h
    rw [emFind] at h
    by_cases hpre : startsL m (c :: cs) = true
    · rw [if_pos hpre] at h
      obtain rfl : ([], (c :: cs).drop m.length) = p := Option.some.inj h
      simp [List.length_drop]
    · rw [if_neg hpre] at h
      by_cases hnl : (c == '\n') = true
      · rw [if_pos hnl] at h; cases h
      · rw [if_neg hnl] at h
        cases hrec : emFind m cs with
        | none => rw [hrec] at h; cases h
        | some q =>
          rw [hrec] at h
          obtain rfl : (c :: q.1, q.2) = p := Option.some.inj h
          exact Nat.le_succ_of_le (ih q hrec)

theorem emFind_rest_sub (m : Str) :
    ∀ (l : Str) (p : Str × Str), emFind m l = some p → ∃ pre, l = pre ++ p.2 := by
  intro l
  induction l with
  | nil => intro p h; cases h
  | cons c cs ih =>
    intro p h
    rw [emFind] at h
    by_cases hpre : startsL m (c :: cs) = true
    · rw [if_pos hpre] at h
      obtain rfl : ([], (c :: cs).drop m.length) = p := Option.some.inj h
      exact ⟨(c :: cs).take m.length, (List.take_append_drop m.length (c :: cs)).symm⟩
    · rw [if_neg hpre] at h
      by_cases hnl : (c == '\n') = true
      · rw [if_pos hnl] at h; cases h
      · rw [if_neg hnl] at h
        cases hrec : emFind m cs with
        | none => rw [hrec] at h; cases h
        | some q =>
          rw [hrec] at h
          obtain rfl : (c :: q.1, q.2) = p := Option.some.inj h
          obtain ⟨pre, hpre2⟩ := ih q hrec
          exact ⟨c :: pre, by rw [hpre2]; rfl⟩

theorem emFind_content_sub (m : Str) :
    ∀ (l : Str) (p : Str × Str), emFind m l = some p → ∀ x ∈ p.1, x ∈ l := by
  intro l
  induction l with
  | nil => intro p h; cases h
  | cons c cs ih =>
    intro p h
    rw [emFind] at h
    by_cases hpre : startsL m (c :: cs) = true
    · rw [if_pos hpre] at h
      obtain rfl : ([], (c :: cs).drop m.length) = p := Option.some.inj h
      intro x hx; cases hx
    · rw [if_neg hpre] at h
      by_cases hnl : (c == '\n') = true
      · rw [if_pos hnl] at h; cases h
      · rw [if_neg hnl] at h
        cases hrec : emFind m cs with
        | none => rw [hrec] at h; cases h
        | some q =>
          rw [hrec] at h
          obtain rfl : (c :: q.1, q.2) = p := Option.some.inj h
          intro x hx
          rcases List.mem_cons.mp hx with h | h
          · exact h ▸ List.mem_cons_self c cs
          · exact List.mem_cons_of_mem _ (ih q hrec x h)

theorem emFind_append_nl (m : Str) (hmne : m ≠ []) (hm : '\n' ∉ m) :
    ∀ (t s2 : Str), '\n' ∉ t →
      emFind m (t ++ '\n' :: s2) = (emFind m t).map (fun p => (p.1, p.2 ++ '\n' :: s2)) := by
  intro t
  induction t with
  | nil =>
    intro s2 _
    cases m with
    | nil => exact absurd rfl hmne
    | cons c0 ms =>
      have hc0 : c0 ≠ '\n' := fun h => hm (h ▸ List.mem_cons_self c0 ms)
      have hpre : startsL (c0 :: ms) ('\n' :: s2) = false := by
        show (c0 == '\n' && startsL ms s2) = false
        simp [beq_eq_false_iff_ne, hc0]
      rw [List.nil_append]
      simp [emFind, hpre]
  | cons a ts ih =>
    intro s2 ht
    have ha : a ≠ '\n' := fun h => ht (h ▸ List.mem_cons_self a ts)
    have hts : '\n' ∉ ts := fun h => ht (List.mem_cons_of_mem _ h)
    have hstarts : startsL m (a :: (ts ++ '\n' :: s2)) = startsL m (a :: ts) := by
      have := startsL_append_nl m (a :: ts) s2 hm ht
      simpa using this
    rw [List.cons_append, emFind, hstarts]
    by_cases hpre : startsL m (a :: ts) = true
    · rw [if_pos hpre]
      obtain ⟨ext, hext⟩ := (startsL_iff _ _).mp hpre
      have hlen : m.length ≤ (a :: ts).length := by
        rw [hext]; simp
      rw [emFind, if_pos hpre]
      have hdrop : (a :: (ts ++ '\n' :: s2)).drop m.length =
          (a :: ts).drop m.length ++ '\n' :: s2 := by
        have : a :: (ts ++ '\n' :: s2) = (a :: ts) ++ '\n' :: s2 := rfl
        rw [this, List.drop_append_of_le_length hlen]
      rw [hdrop]
      rfl
    · rw [if_neg hpre, emFind, if_neg hpre]
      have hanl : (a == '\n') = false := by simp [beq_eq_false_iff_ne, ha]
      rw [hanl]
      simp only [Bool.false_eq_true, if_false]
      rw [ih s2 hts]
      cases hf : emFind m ts with
      | none => rfl
      | some q => rfl

theorem emScanF_fuel (m : Str) (w : Str → Str) (hmne : m ≠ []) :
    ∀ (f g : Nat) (s : Str), s.length ≤ f → s.length ≤ g →
      emScanF m w f s = emScanF m w g s := by
  intro f
  induction f with
  | zero =>
    intro g s hf _
    have : s = [] := List.eq_nil_of_length_eq_zero (Nat.le_zero.mp hf)
    subst this
    cases g <;> rfl
  | succ f ih =>
    intro g s hf hg
    cases s with
    | nil => cases g <;> rfl
    | cons c cs =>
      cases g with
      | zero => exact absurd hg (by simp)
      | succ g' =>
        have hmlen : 1 ≤ m.length := by
          cases m with
          | nil => exact absurd rfl hmne
          | cons x xs => simp
        rw [emScanF, emScanF]
        by_cases hpre : startsL m (c :: cs) = true
        · rw [if_pos hpre, if_pos hpre]
          cases hfind : emFind m ((c :: cs).drop m.length) with
          | none =>
            show c :: emScanF m w f cs = c :: emScanF m w g' cs
            have h1 : cs.length ≤ f := Nat.le_of_succ_le_succ (by simpa using hf)
            have h2 : cs.length ≤ g' := Nat.le_of_succ_le_succ (by simpa using hg)
            rw [ih g' cs h1 h2]
          | some p =>
            obtain ⟨content, rest⟩ := p
            show w content ++ emScanF m w f rest = w content ++ emScanF m w g' rest
            have hrest : rest.length ≤ ((c :: cs).drop m.length).length :=
              emFind_rest_length m _ _ hfind
            have hple : rest.length ≤ cs.length := by
              rw [List.length_drop] at hrest
              have h2 : (c :: cs).length = cs.length + 1 := by simp
              omega
            have hf2 : rest.length ≤ f :=
              le_trans hple (Nat.le_of_succ_le_succ (by simpa using hf))
            have hg2 : rest.length ≤ g' :=
              le_trans hple (Nat.le_of_succ_le_succ (by simpa using hg))
            rw [ih g' rest hf2 hg2]
        · rw [if_neg hpre, if_neg hpre]
          have : cs.length ≤ f ∧ cs.length ≤ g' := by
            constructor
            · exact Nat.le_of_succ_le_succ (by simpa using hf)
            · exact Nat.le_of_succ_le_succ (by simpa using hg)
          rw [ih g' cs this.1 this.2]

theorem emScanF_eq_emScan (m : Str) (w : Str → Str) (hmne : m ≠ []) (f : Nat) (s : Str)
    (h : s.length ≤ f) : emScanF m w f s = emScan m w s :=
  emScanF_fuel m w hmne f s.length s h (Nat.le_refl _)

/-- A single emphasis pass never matches across a newline: scanning
`s1 ++ '\n' ++ s2` (with `s1` newline-free) processes the two sides
independently. -/
theorem emScan_append_nl (m : Str) (w : Str → Str) (hmne : m ≠ []) (hm : '\n' ∉ m) :
    ∀ (n : Nat) (s1 s2 : Str), s1.length ≤ n → '\n' ∉ s1 →
      emScan m w (s1 ++ '\n' :: s2) = emScan m w s1 ++ '\n' :: emScan m w s2 := by
  intro n
  induction n with
  | zero =>
    intro s1 s2 hlen _
    have : s1 = [] := List.eq_nil_of_length_eq_zero (Nat.le_zero.mp hlen)
    subst this
    rw [List.nil_append]
    show emScanF m w ('\n' :: s2).length ('\n' :: s2) = [] ++ '\n' :: emScan m w s2
    have hpre : startsL m ('\n' :: s2) = false := by
      cases m with
      | nil => exact absurd rfl hmne
      | cons c0 ms =>
        have hc0 : c0 ≠ '\n' := fun h => hm (h ▸ List.mem_cons_self c0 ms)
        show (c0 == '\n' && startsL ms s2) = false
        simp [beq_eq_false_iff_ne, hc0]
    rw [List.length_cons, emScanF, if_neg (by simp [hpre])]
    rfl
  | succ n ih =>
    intro s1 s2 hlen hfree
    cases s1 with
    | nil =>
      rw [List.nil_append]
      show emScanF m w ('\n' :: s2).length ('\n' :: s2) = [] ++ '\n' :: emScan m w s2
      have hpre : startsL m ('\n' :: s2) = false := by
        cases m with
        | nil => exact absurd rfl hmne
        | cons c0 ms =>
          have hc0 : c0 ≠ '\n' := fun h => hm (h ▸ List.mem_cons_self c0 ms)
          show (c0 == '\n' && startsL ms s2) = false
          simp [beq_eq_false_iff_ne, hc0]
      rw [List.length_cons, emScanF, if_neg (by simp [hpre])]
      rfl
    | cons c t =>
      have hc : c ≠ '\n' := fun h => hfree (h ▸ List.mem_cons_self c t)
      have ht : '\n' ∉ t := fun h => hfree (List.mem_cons_of_mem _ h)
      have hstarts : startsL m (c :: (t ++ '\n' :: s2)) = startsL m (c :: t) := by
        have := startsL_append_nl m (c :: t) s2 hm hfree
        simpa using this
      show emScanF m w ((c :: t) ++ '\n' :: s2).length ((c :: t) ++ '\n' :: s2) = _
      rw [List.cons_append, List.length_cons, emScanF]
      by_cases hpre : startsL m (c :: t) = true
      · rw [if_pos (by rw [hstarts]; exact hpre)]
        obtain ⟨ext, hext⟩ := (startsL_iff _ _).mp hpre
        have hmlen : m.length ≤ (c :: t).length := by rw [hext]; simp
        have hdrop : (c :: (t ++ '\n' :: s2)).drop m.length =
            (c :: t).drop m.length ++ '\n' :: s2 := by
          have hcc : c :: (t ++ '\n' :: s2) = (c :: t) ++ '\n' :: s2 := rfl
          rw [hcc, List.drop_append_of_le_length hmlen]
        rw [hdrop, emFind_append_nl m hmne hm ((c :: t).drop m.length) s2
          (fun hmem => hfree (List.mem_of_mem_drop hmem))]
        cases hfind : emFind m ((c :: t).drop m.length) with
        | none =>
          show c :: emScanF m w (t ++ '\n' :: s2).length (t ++ '\n' :: s2) =
            emScan m w (c :: t) ++ '\n' :: emScan m w s2
          have hrhs : emScan m w (c :: t) = c :: emScan m w t := by
            show emScanF m w (c :: t).length (c :: t) = _
            rw [List.length_cons, emScanF, if_pos hpre, hfind]
            show c :: emScanF m w t.length t = _
            rfl
          rw [hrhs]
          have : emScanF m w (t ++ '\n' :: s2).length (t ++ '\n' :: s2) =
              emScan m w t ++ '\n' :: emScan m w s2 :=
            ih t s2 (Nat.le_of_succ_le_succ (by simpa using hlen)) ht
          rw [this]
          rfl
        | some p =>
          obtain ⟨content, rest⟩ := p
          have hrlen : rest.length ≤ ((c :: t).drop m.length).length :=
            emFind_rest_length m _ _ hfind
          have hrle : rest.length ≤ t.length := by
            rw [List.length_drop] at hrlen
            have hm1 : 1 ≤ m.length := by
              cases m with
              | nil => exact absurd rfl hmne
              | cons x xs => simp
            have h2 : (c :: t).length = t.length + 1 := by simp
            omega
          have hrfree : '\n' ∉ rest := by
            obtain ⟨pre, hsplit⟩ := emFind_rest_sub m _ _ hfind
            intro hmem
            exact hfree (List.mem_of_mem_drop (hsplit ▸ List.mem_append_right pre hmem))
          show w content ++
              emScanF m w (t ++ '\n' :: s2).length (rest ++ '\n' :: s2) =
            emScan m w (c :: t) ++ '\n' :: emScan m w s2
          have hfuel : (rest ++ '\n' :: s2).length ≤ (t ++ '\n' :: s2).length := by
            simp only [List.length_append, List.length_cons]
            omega
          rw [emScanF_eq_emScan m w hmne _ _ hfuel]
          rw [ih rest s2 (le_trans hrle (Nat.le_of_succ_le_succ (by simpa using hlen))) hrfree]
          have hrhs : emScan m w (c :: t) = w content ++ emScan m w rest := by
            show emScanF m w (c :: t).length (c :: t) = _
            rw [List.length_cons, emScanF, if_pos hpre, hfind]
            show w content ++ emScanF m w t.length rest = _
            rw [emScanF_eq_emScan m w hmne _ _ hrle]
          rw [hrhs, List.append_assoc]
      · rw [if_neg (by rw [hstarts]; exact hpre)]
        show c :: emScanF m w (t ++ '\n' :: s2).length (t ++ '\n' :: s2) =
          emScan m w (c :: t) ++ '\n' :: emScan m w s2
        have hrhs : emScan m w (c :: t) = c :: emScan m w t := by
          show emScanF m w (c :: t).length (c :: t) = _
          rw [List.length_cons, emScanF, if_neg hpre]
          show c :: emScanF m w t.length t = _
          rfl
        rw [hrhs]
        have : emScanF m w (t ++ '\n' :: s2).length (t ++ '\n' :: s2) =
            emScan m w t ++ '\n' :: emScan m w s2 :=
          ih t s2 (Nat.le_of_succ_le_succ (by simpa using hlen)) ht
        rw [this]
        rfl

theorem emScanF_no_nl (m : Str) (w : Str → Str)
    (hw : ∀ cstr : Str, '\n' ∉ cstr → '\n' ∉ w cstr) :
    ∀ (f : Nat) (s : Str), '\n' ∉ s → '\n' ∉ emScanF m w f s := by
  intro f
  induction f with
  | zero =>
    intro s _
    cases s with
    | nil =>
      show '\n' ∉ ([] : Str)
      simp
    | cons c cs =>
      show '\n' ∉ ([] : Str)
      simp
  | succ f ih =>
    intro s hs
    cases s with
    | nil =>
      show '\n' ∉ ([] : Str)
      simp
    | cons c cs =>
      have hc : c ≠ '\n' := fun h => hs (h ▸ List.mem_cons_self c cs)
      have hcs : '\n' ∉ cs := fun h => hs (List.mem_cons_of_mem _ h)
      rw [emScanF]
      by_cases hpre : startsL m (c :: cs) = true
      · rw [if_pos hpre]
        cases hfind : emFind m ((c :: cs).drop m.length) with
        | none =>
          show '\n' ∉ c :: emScanF m w f cs
          intro h
          rcases List.mem_cons.mp h with h | h
          · exact hc h.symm
          · exact ih cs hcs h
        | some p =>
          obtain ⟨content, rest⟩ := p
          show '\n' ∉ w content ++ emScanF m w f rest
          have hcontent : '\n' ∉ content := fun h =>
            hs (List.mem_of_mem_drop (emFind_content_sub m _ _ hfind '\n' h))
          have hrest : '\n' ∉ rest := by
            obtain ⟨pre, hsplit⟩ := emFind_rest_sub m _ _ hfind
            intro h
            exact hs (List.mem_of_mem_drop (hsplit ▸ List.mem_append_right pre h))
          intro h
          rcases List.mem_append.mp h with h | h
          · exact hw content hcontent h
          · exact ih rest hrest h
      · rw [if_neg hpre]
        intro h
        rcases List.mem_cons.mp h with h | h
        · exact hc h.symm
        · exact ih cs hcs h

theorem emScan_no_nl (m : Str) (w : Str → Str)
    (hw : ∀ cstr : Str, '\n' ∉ cstr → '\n' ∉ w cstr) (s : Str) (hs : '\n' ∉ s) :
    '\n' ∉ emScan m w s :=
  emScanF_no_nl m w hw s.length s hs

theorem emScan_joinNl (m : Str) (w : Str → Str) (hmne : m ≠ []) (hm : '\n' ∉ m) :
    ∀ (lines : List Str), lines ≠ [] → (∀ l ∈ lines, '\n' ∉ l) →
      emScan m w (joinNl lines) = joinNl (lines.map (emScan m w)) := by
  intro lines
  induction lines with
  | nil => intro h _; exact absurd rfl h
  | cons l rest ih =>
    intro _ hfree
    cases rest with
    | nil => rfl
    | cons l2 rest2 =>
      have hjoin : joinNl (l :: l2 :: rest2) = l ++ '\n' :: joinNl (l2 :: rest2) := rfl
      rw [hjoin,
        emScan_append_nl m w hmne hm l.length l (joinNl (l2 :: rest2)) (Nat.le_refl _)
          (hfree l (List.mem_cons_self _ _)),
        ih (by simp) (fun x hx => hfree x (List.mem_cons_of_mem _ hx))]
      rfl

theorem splitNl_nl_free : ∀ (l : Str), '\n' ∉ l → splitNl l = [l] := by
  intro l
  induction l with
  | nil => intro _; rfl
  | cons c cs ih =>
    intro h
    have hc : c ≠ '\n' := fun hh => h (hh ▸ List.mem_cons_self c cs)
    have hcs : '\n' ∉ cs := fun hh => h (List.mem_cons_of_mem _ hh)
    rw [splitNl, if_neg (by simp [beq_eq_false_iff_ne, hc]), ih hcs]

theorem splitNl_append_nl : ∀ (l r : Str), '\n' ∉ l →
    splitNl (l ++ '\n' :: r) = l :: splitNl r := by
  intro l
  induction l with
  | nil =>
    intro r _
    rw [List.nil_append, splitNl, if_pos (by simp)]
  | cons c cs ih =>
    intro r h
    have hc : c ≠ '\n' := fun hh => h (hh ▸ List.mem_cons_self c cs)
    have hcs : '\n' ∉ cs := fun hh => h (List.mem_cons_of_mem _ hh)
    rw [List.cons_append, splitNl, if_neg (by simp [beq_eq_false_iff_ne, hc]), ih r hcs]

theorem splitNl_joinNl : ∀ (lines : List Str), lines ≠ [] →
    (∀ l ∈ lines, '\n' ∉ l) → splitNl (joinNl lines) = lines := by
  intro lines
  induction lines with
  | nil => intro h _; exact absurd rfl h
  | cons l rest ih =>
    intro _ hfree
    cases rest with
    | nil => exact splitNl_nl_free l (hfree l (List.mem_cons_self _ _))
    | cons l2 rest2 =>
      have hjoin : joinNl (l :: l2 :: rest2) = l ++ '\n' :: joinNl (l2 :: rest2) := rfl
      rw [hjoin, splitNl_append_nl l _ (hfree l (List.mem_cons_self _ _)),
        ih (by simp) (fun x hx => hfree x (List.mem_cons_of_mem _ hx))]

theorem linePass_joinNl (f : Str → Str) (lines : List Str) (h1 : lines ≠ [])
    (h2 : ∀ l ∈ lines, '\n' ∉ l) :
    linePass f (joinNl lines) = joinNl (lines.map f) := by
  rw [linePass, splitNl_joinNl lines h1 h2]

/-- C10: no emphasis transformation (triple, double or single asterisk)
ever spans a line boundary — the emphasis stage of the renderer processes
the lines of its input independently, and a span whose content holds a
newline (such as `*across\nlines*`) is left untransformed — while the
header, blockquote, and list-item passes are line-local by construction. -/
theorem c10_no_emphasis_across_lines (lines : List Str) (h1 : lines ≠ [])
    (h2 : ∀ l ∈ lines, '\n' ∉ l) :
    emphasisPass (joinNl lines) = joinNl (lines.map emphasisPass) ∧
    linePass headerLine (joinNl lines) = joinNl (lines.map headerLine) ∧
    linePass bqLine (joinNl lines) = joinNl (lines.map bqLine) ∧
    linePass liLine (joinNl lines) = joinNl (lines.map liLine) ∧
    emphasisPass (strOf "*across\nlines*") = strOf "*across\nlines*" := by
  have hw3 : ∀ c : Str, '\n' ∉ c → '\n' ∉ em3Wrap c := by
    intro c hc h
    rcases List.mem_append.mp h with h | h
    · rcases List.mem_append.mp h with h | h
      · exact absurd h (by decide)
      · exact hc h
    · exact absurd h (by decide)
  have hw2 : ∀ c : Str, '\n' ∉ c → '\n' ∉ em2Wrap c := by
    intro c hc h
    rcases List.mem_append.mp h with h | h
    · rcases List.mem_append.mp h with h | h
      · exact absurd h (by decide)
      · exact hc h
    · exact absurd h (by decide)
  refine ⟨?_, linePass_joinNl _ _ h1 h2, linePass_joinNl _ _ h1 h2,
    linePass_joinNl _ _ h1 h2, by decide⟩
  have hne3 : lines.map (emScan (strOf "***") em3Wrap) ≠ [] := by
    simpa using h1
  have hfree3 : ∀ l ∈ lines.map (emScan (strOf "***") em3Wrap), '\n' ∉ l := by
    intro l hl
    obtain ⟨x, hx, rfl⟩ := List.mem_map.mp hl
    exact emScan_no_nl _ _ hw3 x (h2 x hx)
  have hne2 : (lines.map (emScan (strOf "***") em3Wrap)).map
      (emScan (strOf "**") em2Wrap) ≠ [] := by
    simpa using h1
  have hfree2 : ∀ l ∈ (lines.map (emScan (strOf "***") em3Wrap)).map
      (emScan (strOf "**") em2Wrap), '\n' ∉ l := by
    intro l hl
    obtain ⟨x, hx, rfl⟩ := List.mem_map.mp hl
    exact emScan_no_nl _ _ hw2 x (hfree3 x hx)
  show emScan (strOf "*") em1Wrap
      (emScan (strOf "**") em2Wrap (emScan (strOf "***") em3Wrap (joinNl lines))) = _
  rw [emScan_joinNl (strOf "***") em3Wrap (by decide) (by decide) lines h1 h2,
    emScan_joinNl (strOf "**") em2Wrap (by decide) (by decide) _ hne3 hfree3,
    emScan_joinNl (strOf "*") em1Wrap (by decide) (by decide) _ hne2 hfree2,
    List.map_map, List.map_map]
  rfl

theorem c10_witness :
    emphasisPass (joinNl [strOf "**a", strOf "b**"]) =
      joinNl ([strOf "**a", strOf "b**"].map emphasisPass) ∧
    linePass headerLine (joinNl [strOf "**a", strOf "b**"]) =
      joinNl ([strOf "**a", strOf "b**"].map headerLine) ∧
    linePass bqLine (joinNl [strOf "**a", strOf "b**"]) =
      joinNl ([strOf "**a", strOf "b**"].map bqLine) ∧
    linePass liLine (joinNl [strOf "**a", strOf "b**"]) =
      joinNl ([strOf "**a", strOf "b**"].map liLine) ∧
    emphasisPass (strOf "*across\nlines*") = strOf "*across\nlines*" :=
  c10_no_emphasis_across_lines [strOf "**a", strOf "b**"] (by decide) (by decide)
